import Mathlib

/-!
Verification of the TS-guess generation pipeline
(`src/reaction_profile_generator/generator.py`).

The pure algorithmic content of the Python source is embedded shallowly:

* energies / bias potentials are rational numbers (the Python floats carry
  exact decimal literals in every scenario considered here);
* the external xTB engine (biased optimization runs, frequency
  calculations) is an out-of-scope collaborator; its per-run observables
  (final-step bias potential, number of negative frequencies of a written
  geometry) enter the embedding as oracle functions;
* Euclidean geometry (`scipy.spatial.distance_matrix`) is embedded over ℝ.
-/

namespace TSTools

/-! ### `get_ts_guess_index` (generator.py lines 204-218)

`true_energy = list(energies - potentials)` is the elementwise difference of
the two parallel sequences; `true_energy.index(max(true_energy))` is the
first index attaining the maximum. -/

/-- Elementwise `energies - potentials` (numpy array subtraction). -/
def true_energy (energies potentials : List ℚ) : List ℚ :=
  List.zipWith (fun e p => e - p) energies potentials

/-- One step of the running-maximum fold: keep the running value unless a
strictly larger element appears, so the first maximal element wins. -/
def maxStep (a b : ℚ) : ℚ := if a < b then b else a

/-- Python's `max` on a non-empty list of numbers (`0` as junk value on `[]`,
where Python would raise). -/
def pymax : List ℚ → ℚ
  | [] => 0
  | x :: xs => xs.foldl maxStep x

/-- `get_ts_guess_index(energies, potentials)`:
`true_energy.index(max(true_energy))`. -/
def get_ts_guess_index (energies potentials : List ℚ) : ℕ :=
  (true_energy energies potentials).indexOf (pymax (true_energy energies potentials))

theorem le_maxStep_left (a b : ℚ) : a ≤ maxStep a b := by
  unfold maxStep; split
  · exact le_of_lt (by assumption)
  · exact le_refl a

theorem le_maxStep_right (a b : ℚ) : b ≤ maxStep a b := by
  unfold maxStep; split
  · exact le_refl b
  · exact le_of_not_lt (by assumption)

theorem maxStep_choice (a b : ℚ) : maxStep a b = a ∨ maxStep a b = b := by
  unfold maxStep; split
  · exact Or.inr rfl
  · exact Or.inl rfl

theorem le_foldl_max (l : List ℚ) (a : ℚ) : a ≤ l.foldl maxStep a := by
  induction l generalizing a with
  | nil => exact le_refl a
  | cons x xs ih => exact le_trans (le_maxStep_left a x) (ih (maxStep a x))

theorem mem_le_foldl_max {x : ℚ} {l : List ℚ} (hx : x ∈ l) (a : ℚ) :
    x ≤ l.foldl maxStep a := by
  induction l generalizing a with
  | nil => cases hx
  | cons y ys ih =>
    rcases List.mem_cons.mp hx with h | h
    · subst h
      exact le_trans (le_maxStep_right a x) (le_foldl_max ys (maxStep a x))
    · exact ih h (maxStep a y)

theorem foldl_max_mem (l : List ℚ) (a : ℚ) :
    l.foldl maxStep a = a ∨ l.foldl maxStep a ∈ l := by
  induction l generalizing a with
  | nil => exact Or.inl rfl
  | cons y ys ih =>
    rcases ih (maxStep a y) with h | h
    · rcases maxStep_choice a y with hm | hm
      · exact Or.inl (by rw [List.foldl_cons, h, hm])
      · exact Or.inr (by rw [List.foldl_cons, h, hm]; exact List.mem_cons_self y ys)
    · exact Or.inr (List.mem_cons_of_mem y h)

theorem pymax_mem {l : List ℚ} (h : l ≠ []) : pymax l ∈ l := by
  cases l with
  | nil => exact absurd rfl h
  | cons x xs =>
    rcases foldl_max_mem xs x with h' | h'
    · rw [pymax, h']; exact List.mem_cons_self x xs
    · exact List.mem_cons_of_mem x h'

theorem le_pymax {x : ℚ} {l : List ℚ} (hx : x ∈ l) : x ≤ pymax l := by
  cases l with
  | nil => cases hx
  | cons y ys =>
    rcases List.mem_cons.mp hx with h | h
    · subst h; exact le_foldl_max ys x
    · exact mem_le_foldl_max h y

/-- Elements strictly before `l.indexOf a` are not equal to `a`
(`list.index` returns the first occurrence). -/
theorem getD_ne_of_lt_indexOf {l : List ℚ} {a : ℚ} {j : ℕ}
    (hj : j < l.indexOf a) (d : ℚ) : l.getD j d ≠ a := by
  induction l generalizing j with
  | nil => simp [List.indexOf] at hj
  | cons x xs ih =>
    by_cases hx : x = a
    · rw [List.indexOf_cons_eq xs hx] at hj; cases hj
    · rw [List.indexOf_cons_ne xs hx] at hj
      cases j with
      | zero => simpa using hx
      | succ j =>
        have := ih (Nat.lt_of_succ_lt_succ hj)
        simpa using this

theorem getD_indexOf {l : List ℚ} {a : ℚ} (h : a ∈ l) (d : ℚ) :
    l.getD (l.indexOf a) d = a := by
  have hlt : l.indexOf a < l.length := List.indexOf_lt_length.mpr h
  rw [List.getD_eq_getElem l d hlt]
  exact List.getElem_indexOf hlt

/-- Claim C1: for non-empty parallel sequences of energies and potentials of
equal length, `get_ts_guess_index` returns the first index maximizing the
bias-corrected energy `energies[i] - potentials[i]` (first occurrence on
ties), the index is within trajectory bounds, and on energies
`[-10, -9, -8]` with potentials `[0, 5, 0.005]` the literal formula selects
index 2. -/
theorem get_ts_guess_index_spec (energies potentials : List ℚ)
    (hlen : energies.length = potentials.length) (hne : energies ≠ []) :
    get_ts_guess_index energies potentials < energies.length ∧
    (∀ j, j < energies.length →
      (true_energy energies potentials).getD j 0 ≤
        (true_energy energies potentials).getD (get_ts_guess_index energies potentials) 0) ∧
    (∀ j, j < get_ts_guess_index energies potentials →
      (true_energy energies potentials).getD j 0 <
        (true_energy energies potentials).getD (get_ts_guess_index energies potentials) 0) ∧
    get_ts_guess_index [-10, -9, -8] [0, 5, 1/200] = 2 := by
  have hte : (true_energy energies potentials).length = energies.length := by
    simp [true_energy, hlen]
  have hte_ne : true_energy energies potentials ≠ [] := by
    intro h
    apply hne
    have := congrArg List.length h
    rw [hte] at this
    exact List.length_eq_zero.mp this
  have hmem : pymax (true_energy energies potentials) ∈ true_energy energies potentials :=
    pymax_mem hte_ne
  have hidx : get_ts_guess_index energies potentials <
      (true_energy energies potentials).length :=
    List.indexOf_lt_length.mpr hmem
  have hval : (true_energy energies potentials).getD
      (get_ts_guess_index energies potentials) 0 =
      pymax (true_energy energies potentials) :=
    getD_indexOf hmem 0
  have e1 : true_energy [-10, -9, -8] [0, 5, 1/200] = [-10, -14, -1601/200] := by
    norm_num [true_energy]
  have e2 : pymax [(-10 : ℚ), -14, -1601/200] = -1601/200 := by
    norm_num [pymax, maxStep]
  have e3 : get_ts_guess_index [-10, -9, -8] [0, 5, 1/200] = 2 := by
    rw [get_ts_guess_index, e1, e2]
    rw [List.indexOf_cons_ne _ (by norm_num), List.indexOf_cons_ne _ (by norm_num),
      List.indexOf_cons_self]
  refine ⟨hte ▸ hidx, ?_, ?_, e3⟩
  · intro j hj
    rw [hval]
    apply le_pymax
    have hj' : j < (true_energy energies potentials).length := by rw [hte]; exact hj
    rw [List.getD_eq_getElem _ 0 hj']
    exact List.getElem_mem hj'
  · intro j hj
    have hne' : (true_energy energies potentials).getD j 0 ≠
        pymax (true_energy energies potentials) :=
      getD_ne_of_lt_indexOf hj 0
    rw [hval]
    have hjl : j < (true_energy energies potentials).length := lt_trans hj hidx
    have hle : (true_energy energies potentials).getD j 0 ≤
        pymax (true_energy energies potentials) := by
      apply le_pymax
      rw [List.getD_eq_getElem _ 0 hjl]
      exact List.getElem_mem hjl
    exact lt_of_le_of_ne hle hne'

/-- Witness for C1 at the concrete Scenario-B trajectory. -/
theorem get_ts_guess_index_spec_witness :
    ([(-10 : ℚ), -9, -8].length = [(0 : ℚ), 5, 1/200].length) ∧
    get_ts_guess_index [-10, -9, -8] [0, 5, 1/200] = 2 :=
  ⟨rfl,
    (get_ts_guess_index_spec [-10, -9, -8] [0, 5, 1/200] rfl (by simp)).2.2.2⟩

/-! ### The force-constant scan of `find_ts_guess` (generator.py lines 96-132)

The biased optimization itself is performed by the external xTB engine
(`get_profile_for_biased_optimization`); its only observable used by the
scan's control flow is the accepted/rejected test on the trajectory's
final-step bias potential `potentials[-1]`.  The embedding therefore takes
an oracle `pot : ℚ → ℚ` giving, for each force constant, the final-step
potential of the corresponding run. -/

/-- `np.arange(start, stop, step)` in exact rational arithmetic: the values
`start + i*step` for `0 ≤ i < ⌈(stop - start)/step⌉`. -/
def np_arange (start stop step : ℚ) : List ℚ :=
  (List.range (Int.toNat ⌈(stop - start) / step⌉)).map
    (fun i : ℕ => start + (i : ℚ) * step)

/-- The inner `for force_constant in np.arange(fc_min, fc_max, fc_delta)`
loop of `find_ts_guess`: reject a run while `potentials[-1] > 0.01`
(`continue`), accept the first run with `potentials[-1] ≤ 0.01` (`break`).
Returns the list of force constants actually evaluated together with the
accepted force constant (if any). -/
def fc_scan (pot : ℚ → ℚ) : List ℚ → List ℚ × Option ℚ
  | [] => ([], none)
  | fc :: rest =>
    if pot fc > 1/100 then
      (fc :: (fc_scan pot rest).1, (fc_scan pot rest).2)
    else ([fc], some fc)

theorem fc_scan_eval (pot : ℚ → ℚ) (fcs : List ℚ) :
    (fc_scan pot fcs).1 =
      fcs.takeWhile (fun fc => decide (pot fc > 1/100)) ++
        (fcs.dropWhile (fun fc => decide (pot fc > 1/100))).take 1 ∧
    (fc_scan pot fcs).2 =
      (fcs.dropWhile (fun fc => decide (pot fc > 1/100))).head? := by
  induction fcs with
  | nil => simp [fc_scan]
  | cons fc rest ih =>
    by_cases h : (100 : ℚ)⁻¹ < pot fc
    · simp [fc_scan, h, List.takeWhile_cons, List.dropWhile_cons, ih.1, ih.2]
    · simp [fc_scan, h, List.takeWhile_cons, List.dropWhile_cons]

theorem np_arange_mem {start stop step : ℚ} (hstep : 0 < step) {fc : ℚ}
    (h : fc ∈ np_arange start stop step) :
    (∃ i : ℕ, fc = start + i * step) ∧ fc < stop := by
  rcases List.mem_map.mp h with ⟨i, hi, rfl⟩
  refine ⟨⟨i, rfl⟩, ?_⟩
  have hi' : i < Int.toNat ⌈(stop - start) / step⌉ := List.mem_range.mp hi
  have h1 : (i : ℤ) < ⌈(stop - start) / step⌉ := by
    omega
  have h2 : (i : ℚ) < (stop - start) / step := by
    have := Int.lt_ceil.mp h1
    exact_mod_cast this
  have h3 : (i : ℚ) * step < stop - start := (lt_div_iff₀ hstep).mp h2
  linarith

theorem np_arange_complete {start stop step : ℚ} (hstep : 0 < step) (i : ℕ)
    (h : start + i * step < stop) :
    start + i * step ∈ np_arange start stop step := by
  refine List.mem_map.mpr ⟨i, List.mem_range.mpr ?_, rfl⟩
  have h2 : (i : ℚ) < (stop - start) / step := by
    rw [lt_div_iff₀ hstep]
    linarith
  have h1 : (i : ℤ) < ⌈(stop - start) / step⌉ := Int.lt_ceil.mpr (by exact_mod_cast h2)
  omega

theorem np_arange_sorted (start stop step : ℚ) (hstep : 0 < step) :
    (np_arange start stop step).Pairwise (· < ·) := by
  unfold np_arange
  refine List.pairwise_map.mpr ?_
  refine List.Pairwise.imp ?_ (List.pairwise_lt_range _)
  intro a b hab
  have : (a : ℚ) < b := by exact_mod_cast hab
  nlinarith

/-- Claim C2: the force-constant scan evaluates the values
`fc_min + i*fc_delta` (all of them, exactly those strictly below `fc_max`)
in ascending order, moves on whenever the run's final-step potential
exceeds `0.01`, and accepts the first run whose final-step potential is
`≤ 0.01`, evaluating nothing after acceptance: the evaluated list is the
rejected head of the range followed by the accepted value. -/
theorem fc_scan_spec (pot : ℚ → ℚ) (fc_min fc_max fc_delta : ℚ)
    (hδ : 0 < fc_delta) :
    (∀ fc ∈ np_arange fc_min fc_max fc_delta,
      (∃ i : ℕ, fc = fc_min + i * fc_delta) ∧ fc < fc_max) ∧
    (∀ i : ℕ, fc_min + i * fc_delta < fc_max →
      fc_min + i * fc_delta ∈ np_arange fc_min fc_max fc_delta) ∧
    (np_arange fc_min fc_max fc_delta).Pairwise (· < ·) ∧
    (fc_scan pot (np_arange fc_min fc_max fc_delta)).1 =
      (np_arange fc_min fc_max fc_delta).takeWhile (fun fc => decide (pot fc > 1/100)) ++
        ((np_arange fc_min fc_max fc_delta).dropWhile
          (fun fc => decide (pot fc > 1/100))).take 1 ∧
    (fc_scan pot (np_arange fc_min fc_max fc_delta)).2 =
      ((np_arange fc_min fc_max fc_delta).dropWhile
        (fun fc => decide (pot fc > 1/100))).head? :=
  ⟨fun _ h => np_arange_mem hδ h, fun i h => np_arange_complete hδ i h,
    np_arange_sorted _ _ _ hδ,
    (fc_scan_eval pot _).1, (fc_scan_eval pot _).2⟩

/-- Witness for C2 with `fc_min = 0`, `fc_max = 2`, `fc_delta = 1` and a run
oracle rejecting only the first force constant. -/
theorem fc_scan_spec_witness :
    (0 : ℚ) < 1 ∧
    (fc_scan (fun fc => if fc < 1 then 1 else 0) (np_arange 0 2 1)).2 =
      ((np_arange 0 2 1).dropWhile
        (fun fc => decide ((if fc < (1 : ℚ) then (1 : ℚ) else 0) > 1/100))).head? :=
  ⟨one_pos, (fc_scan_spec (fun fc => if fc < 1 then 1 else 0) 0 2 1 one_pos).2.2.2.2⟩

/-! ### `get_final_ts_guess_geometry` (generator.py lines 135-181)

The candidate loop writes each candidate geometry to an xyz file and calls
the external frequency engine on it (`get_negative_frequencies`).  The
engine is an out-of-scope collaborator; it is deterministic in the written
geometry, so its observable enters the embedding as an oracle
`freq : ℕ → ℕ` giving the number of negative frequencies reported for the
trajectory geometry at a given step index. -/

/-- The candidate indices examined by the loop
`for index in range(preliminary_ts_guess_index,
min(preliminary_ts_guess_index + 6, len(atoms)))`. -/
def ts_candidate_indices (p len : ℕ) : List ℕ :=
  List.range' p (min (p + 6) len - p)

/-- The candidate loop of `get_final_ts_guess_geometry`.  Per candidate the
source writes the geometry and calls the frequency engine, returns on
exactly one negative frequency, then — a duplicated block (lines 159-171
repeat lines 150-157) — writes and calls the engine a second time with the
same check before moving to the next candidate.  Returns the accepted index
(if any) together with the number of frequency-engine invocations. -/
def examine_candidates (freq : ℕ → ℕ) : List ℕ → Option ℕ × ℕ
  | [] => (none, 0)
  | i :: rest =>
    if freq i = 1 then (some i, 1)
    else if freq i = 1 then (some i, 2)
    else ((examine_candidates freq rest).1, (examine_candidates freq rest).2 + 2)

/-- `get_final_ts_guess_geometry`, abstracted to the index of the
trajectory geometry written to the returned xyz file: the accepted
candidate if the loop exits early, else the original preliminary index. -/
def get_final_ts_guess_geometry (freq : ℕ → ℕ) (p len : ℕ) : ℕ :=
  ((examine_candidates freq (ts_candidate_indices p len)).1).getD p

theorem examine_candidates_none {freq : ℕ → ℕ} :
    ∀ {l : List ℕ}, (examine_candidates freq l).1 = none → ∀ i ∈ l, freq i ≠ 1 := by
  intro l
  induction l with
  | nil => intro _ i hi; cases hi
  | cons j rest ih =>
    intro h i hi
    by_cases hj : freq j = 1
    · simp [examine_candidates, hj] at h
    · rcases List.mem_cons.mp hi with rfl | hi'
      · exact hj
      · refine ih ?_ i hi'
        simpa [examine_candidates, hj] using h

theorem examine_candidates_some {freq : ℕ → ℕ} :
    ∀ {l : List ℕ} {r : ℕ}, (examine_candidates freq l).1 = some r →
      r ∈ l ∧ freq r = 1 := by
  intro l
  induction l with
  | nil => intro r h; simp [examine_candidates] at h
  | cons j rest ih =>
    intro r h
    by_cases hj : freq j = 1
    · simp [examine_candidates, hj] at h
      exact ⟨by simp [h], h ▸ hj⟩
    · have h' : (examine_candidates freq rest).1 = some r := by
        simpa [examine_candidates, hj] using h
      exact ⟨List.mem_cons_of_mem j (ih h').1, (ih h').2⟩

theorem examine_candidates_first {freq : ℕ → ℕ} :
    ∀ {k p r : ℕ}, (examine_candidates freq (List.range' p k)).1 = some r →
      ∀ j, p ≤ j → j < r → freq j ≠ 1 := by
  intro k
  induction k with
  | zero => intro p r h; simp [List.range', examine_candidates] at h
  | succ k ih =>
    intro p r h j hpj hjr
    rw [List.range'_succ] at h
    by_cases hp : freq p = 1
    · simp [examine_candidates, hp] at h
      omega
    · have h' : (examine_candidates freq (List.range' (p + 1) k)).1 = some r := by
        simpa [examine_candidates, hp] using h
      rcases Nat.eq_or_lt_of_le hpj with rfl | hpj'
      · exact hp
      · exact ih h' j hpj' hjr

/-- Claim C3: starting at the selected index, the validation scans the
window `range(p, min(p + 6, len))`; it returns the first candidate whose
geometry the frequency engine reports with exactly one negative frequency
(candidates with zero or more than one are skipped), and returns the
geometry at the originally selected index when no candidate in the window
qualifies. -/
theorem get_final_ts_guess_geometry_spec (freq : ℕ → ℕ) (p len : ℕ)
    (hp : p < len) :
    (∀ i, i ∈ ts_candidate_indices p len ↔ p ≤ i ∧ i < min (p + 6) len) ∧
    ((∃ i, p ≤ i ∧ i < min (p + 6) len ∧ freq i = 1) →
      p ≤ get_final_ts_guess_geometry freq p len ∧
      get_final_ts_guess_geometry freq p len < min (p + 6) len ∧
      freq (get_final_ts_guess_geometry freq p len) = 1 ∧
      ∀ j, p ≤ j → j < get_final_ts_guess_geometry freq p len → freq j ≠ 1) ∧
    ((∀ i, p ≤ i → i < min (p + 6) len → freq i ≠ 1) →
      get_final_ts_guess_geometry freq p len = p) := by
  have hmin : p + (min (p + 6) len - p) = min (p + 6) len := by omega
  have hmem : ∀ i, i ∈ ts_candidate_indices p len ↔ p ≤ i ∧ i < min (p + 6) len := by
    intro i
    rw [ts_candidate_indices, List.mem_range'_1, hmin]
  refine ⟨hmem, ?_, ?_⟩
  · rintro ⟨i, hpi, hilt, hfi⟩
    cases h : (examine_candidates freq (ts_candidate_indices p len)).1 with
    | none =>
      exact absurd hfi (examine_candidates_none h i ((hmem i).mpr ⟨hpi, hilt⟩))
    | some r =>
      have hr := examine_candidates_some h
      have hrange := (hmem r).mp hr.1
      have hfirst := examine_candidates_first (k := min (p + 6) len - p) h
      refine ⟨?_, ?_, ?_, ?_⟩ <;>
        simp only [get_final_ts_guess_geometry, h, Option.getD_some]
      · exact hrange.1
      · exact hrange.2
      · exact hr.2
      · exact hfirst
  · intro hall
    cases h : (examine_candidates freq (ts_candidate_indices p len)).1 with
    | none => simp [get_final_ts_guess_geometry, h]
    | some r =>
      have hr := examine_candidates_some h
      have hrange := (hmem r).mp hr.1
      exact absurd hr.2 (hall r hrange.1 hrange.2)

/-- Witness for C3: a 3-step trajectory, preliminary index 1, where step 1
has two negative frequencies and step 2 exactly one — the scan skips step 1
and accepts step 2. -/
theorem get_final_ts_guess_geometry_spec_witness :
    (1 : ℕ) < 3 ∧
    get_final_ts_guess_geometry (fun i => if i = 2 then 1 else 2) 1 3 = 2 := by
  refine ⟨by decide, ?_⟩
  have h := (get_final_ts_guess_geometry_spec (fun i => if i = 2 then 1 else 2) 1 3
    (by decide)).2.1 ⟨2, by decide, by decide, by decide⟩
  rcases h with ⟨h1, h2, h3, h4⟩
  by_contra hne
  have h2' : get_final_ts_guess_geometry (fun i => if i = 2 then 1 else 2) 1 3 < 2 := by
    omega
  have := h3
  rw [if_neg (by omega : ¬ get_final_ts_guess_geometry
    (fun i => if i = 2 then 1 else 2) 1 3 = 2)] at this
  omega

/-- Claim C4 (code bug): with a single candidate step whose geometry the
engine reports with zero negative frequencies, the duplicated block of
`get_final_ts_guess_geometry` (lines 159-171 repeat lines 150-157) invokes
the external frequency calculation twice for that one examined candidate,
not exactly once as the claim states. -/
theorem frequency_invocations_per_candidate :
    (examine_candidates (fun _ => 0) [0]).2 = 2 ∧
    (examine_candidates (fun _ => 0) [0]).2 ≠ 1 := by
  constructor <;> decide

/-! ### The conformer loop of `find_ts_guess` (generator.py lines 96-132)

Conformers are abstracted to identifiers; `pot c fc` is the oracle for the
final-step potential (`potentials[-1]`) of the biased run for conformer
`c` at force constant `fc`.  On acceptance the body returns the final
TS-guess geometry, abstracted here to the pair of the conformer and the
accepted force constant.  On exhaustion the body executes
`print(potentials[-1]); return None`, which raises `NameError` when the
force-constant range is empty (the loop never bound `potentials`); this is
modelled as `Except.error ()`.  Every path through the body returns, so at
most the first conformer of the list is ever processed; the second
component records the conformers actually processed. -/

/-- The outer `for conformer in conformers_to_do` loop of `find_ts_guess`. -/
def find_ts_guess_loop (pot : ℕ → ℚ → ℚ) (fcs : List ℚ) :
    List ℕ → Except Unit (Option (ℕ × ℚ)) × List ℕ
  | [] => (Except.ok none, [])
  | c :: _ =>
    match (fc_scan (pot c) fcs).2 with
    | some fc => (Except.ok (some (c, fc)), [c])
    | none =>
      match fcs with
      | [] => (Except.error (), [c])
      | _ :: _ => (Except.ok none, [c])

/-- Claim C5 (code bug): with two representative conformers, where the
first conformer's scan exhausts (its only run keeps `potentials[-1] = 1 >
0.01`) while the second conformer's scan would accept immediately,
`find_ts_guess` returns `None` having processed only the first conformer —
the loop body returns on every path in its first iteration, so not every
representative conformer is subjected to the scan. -/
theorem find_ts_guess_only_first_conformer :
    find_ts_guess_loop (fun c _ => if c = 0 then 1 else 0) [0] [0, 1] =
      (Except.ok none, [0]) ∧
    find_ts_guess_loop (fun c _ => if c = 0 then 1 else 0) [0] [1] =
      (Except.ok (some (1, 0)), [1]) := by
  constructor <;> norm_num [find_ts_guess_loop, fc_scan]

/-- Claim C6: when the configured force-constant range is non-degenerate
(`fc_delta > 0`, `fc_min < fc_max`, so at least one run happens) and every
run's final-step potential exceeds 0.01, `find_ts_guess` returns the
defined no-result value `None` — a search-exhaustion outcome, not an
exception, and no geometry. -/
theorem find_ts_guess_exhaustion (pot : ℕ → ℚ → ℚ) (confs : List ℕ)
    (fc_min fc_max fc_delta : ℚ) (hδ : 0 < fc_delta) (hlt : fc_min < fc_max)
    (h : ∀ c ∈ confs, ∀ fc ∈ np_arange fc_min fc_max fc_delta,
      pot c fc > 1/100) :
    (find_ts_guess_loop pot (np_arange fc_min fc_max fc_delta) confs).1 =
      Except.ok none := by
  have hmem : fc_min ∈ np_arange fc_min fc_max fc_delta := by
    have h0 : fc_min + ((0 : ℕ) : ℚ) * fc_delta < fc_max := by push_cast; linarith
    have := np_arange_complete hδ 0 h0
    simpa using this
  cases confs with
  | nil => rfl
  | cons c cs =>
    have hscan : (fc_scan (pot c) (np_arange fc_min fc_max fc_delta)).2 = none := by
      rw [(fc_scan_eval (pot c) _).2]
      have hdrop : (np_arange fc_min fc_max fc_delta).dropWhile
          (fun fc => decide (pot c fc > 1/100)) = [] := by
        rw [List.dropWhile_eq_nil_iff]
        intro fc hfc
        exact decide_eq_true (h c (List.mem_cons_self c cs) fc hfc)
      rw [hdrop]
      rfl
    cases hfcs : np_arange fc_min fc_max fc_delta with
    | nil => rw [hfcs] at hmem; cases hmem
    | cons f fs =>
      rw [hfcs] at hscan
      simp [find_ts_guess_loop, hfcs, hscan]

/-- Witness for C6: one conformer, the range `[0, 1)` with step `1`
(a single run), constant final-step potential `1 > 0.01`. -/
theorem find_ts_guess_exhaustion_witness :
    (0 : ℚ) < 1 ∧
    (find_ts_guess_loop (fun _ _ => 1) (np_arange 0 1 1) [0]).1 =
      Except.ok none :=
  ⟨zero_lt_one,
    find_ts_guess_exhaustion (fun _ _ => 1) [0] 0 1 1 zero_lt_one zero_lt_one
      (fun _ _ _ _ => by norm_num)⟩

/-! ### `determine_potential` (generator.py lines 673-707)

Geometries are rows of Cartesian coordinates; `scipy.spatial.distance_matrix`
computes pairwise Euclidean distances, embedded here over ℝ. -/

/-- One row of a coordinate array. -/
abbrev Point : Type := ℝ × ℝ × ℝ

/-- Euclidean distance between two 3D points. -/
noncomputable def euclidean_distance (p q : Point) : ℝ :=
  Real.sqrt ((p.1 - q.1) ^ 2 + (p.2.1 - q.2.1) ^ 2 + (p.2.2 - q.2.2) ^ 2)

/-- `angstrom_to_bohr` (lines 697-707): multiply by `1.88973`. -/
noncomputable def angstrom_to_bohr (distance_angstrom : ℝ) : ℝ :=
  distance_angstrom * 1.88973

/-- Entry `(i, j)` of `distance_matrix(coords, coords)`. -/
noncomputable def dist_matrix_entry (coords : List Point) (i j : ℕ) : ℝ :=
  euclidean_distance (coords.getD i (0, 0, 0)) (coords.getD j (0, 0, 0))

/-- Inner loop of `determine_potential` for one logged geometry:
`potential += force_constant * angstrom_to_bohr(dist_matrix[key] - val) ** 2`
over the constraint dictionary, starting from `potential = 0`. -/
noncomputable def determine_potential_step (coords : List Point)
    (constraints : List ((ℕ × ℕ) × ℝ)) (force_constant : ℝ) : ℝ :=
  constraints.foldl
    (fun potential c =>
      potential + force_constant *
        angstrom_to_bohr (dist_matrix_entry coords c.1.1 c.1.2 - c.2) ^ 2) 0

/-- `determine_potential` (lines 673-694): one bias-potential value per
logged geometry. -/
noncomputable def determine_potential (all_coords : List (List Point))
    (constraints : List ((ℕ × ℕ) × ℝ)) (force_constant : ℝ) : List ℝ :=
  all_coords.map
    (fun coords => determine_potential_step coords constraints force_constant)

theorem foldl_add_eq {α : Type} (f : α → ℝ) (l : List α) (a : ℝ) :
    l.foldl (fun acc c => acc + f c) a = a + (l.map f).sum := by
  induction l generalizing a with
  | nil => simp
  | cons x xs ih =>
    rw [List.foldl_cons, ih (a + f x), List.map_cons, List.sum_cons]
    ring

theorem sum_eq_zero_iff_of_nonneg {l : List ℝ} (h : ∀ x ∈ l, 0 ≤ x) :
    l.sum = 0 ↔ ∀ x ∈ l, x = 0 := by
  induction l with
  | nil => simp
  | cons x xs ih =>
    have hx : 0 ≤ x := h x (List.mem_cons_self x xs)
    have hxs : ∀ y ∈ xs, 0 ≤ y := fun y hy => h y (List.mem_cons_of_mem x hy)
    have hsum : 0 ≤ xs.sum := List.sum_nonneg hxs
    rw [List.sum_cons]
    constructor
    · intro h0
      have hx0 : x = 0 := by linarith
      have hs0 : xs.sum = 0 := by linarith
      intro y hy
      rcases List.mem_cons.mp hy with rfl | hy'
      · exact hx0
      · exact (ih hxs).mp hs0 y hy'
    · intro hall
      rw [hall x (List.mem_cons_self x xs), zero_add]
      exact (ih hxs).mpr fun y hy => hall y (List.mem_cons_of_mem x hy)

/-- Claim C7: for every geometry, constraint map, and positive force
constant `k`, the bias potential of `determine_potential` equals
`k * Σ (1.88973 * (actual - target))²`, is non-negative, and is zero iff
every constrained distance exactly equals its target; a single constrained
pair at target 2.0 Å with actual Euclidean distance 2.0 Å yields potential
exactly 0, independent of `k`. -/
theorem determine_potential_spec (coords : List Point)
    (constraints : List ((ℕ × ℕ) × ℝ)) (k : ℝ) (hk : 0 < k) :
    determine_potential_step coords constraints k =
      k * (constraints.map
        (fun c => angstrom_to_bohr (dist_matrix_entry coords c.1.1 c.1.2 - c.2) ^ 2)).sum ∧
    0 ≤ determine_potential_step coords constraints k ∧
    (determine_potential_step coords constraints k = 0 ↔
      ∀ c ∈ constraints, dist_matrix_entry coords c.1.1 c.1.2 = c.2) ∧
    determine_potential [[(0, 0, 0), (2, 0, 0)]] [((0, 1), 2)] k = [0] := by
  have hterm : ∀ c : (ℕ × ℕ) × ℝ,
      0 ≤ k * angstrom_to_bohr (dist_matrix_entry coords c.1.1 c.1.2 - c.2) ^ 2 :=
    fun c => mul_nonneg (le_of_lt hk) (sq_nonneg _)
  have heq : determine_potential_step coords constraints k =
      (constraints.map
        (fun c => k * angstrom_to_bohr (dist_matrix_entry coords c.1.1 c.1.2 - c.2) ^ 2)).sum := by
    rw [determine_potential_step, foldl_add_eq, zero_add]
  have hnonneg : ∀ x ∈ constraints.map
      (fun c => k * angstrom_to_bohr (dist_matrix_entry coords c.1.1 c.1.2 - c.2) ^ 2),
      0 ≤ x := by
    intro x hx
    rcases List.mem_map.mp hx with ⟨c, _, rfl⟩
    exact hterm c
  have hbohr : ∀ d t : ℝ, (angstrom_to_bohr (d - t) = 0 ↔ d = t) := by
    intro d t
    rw [angstrom_to_bohr, mul_eq_zero, sub_eq_zero]
    constructor
    · rintro (h | h)
      · exact h
      · norm_num at h
    · exact Or.inl
  refine ⟨by rw [heq, List.sum_map_mul_left], ?_, ?_, ?_⟩
  · rw [heq]
    exact List.sum_nonneg hnonneg
  · rw [heq, sum_eq_zero_iff_of_nonneg hnonneg]
    constructor
    · intro h0 c hc
      have := h0 _ (List.mem_map.mpr ⟨c, hc, rfl⟩)
      rcases mul_eq_zero.mp this with h | h
      · exact absurd h (ne_of_gt hk)
      · exact (hbohr _ _).mp ((pow_eq_zero_iff (two_ne_zero)).mp h)
    · intro hall x hx
      rcases List.mem_map.mp hx with ⟨c, hc, rfl⟩
      rw [(hbohr _ _).mpr (hall c hc)]
      simp
  · have hdist : dist_matrix_entry [((0 : ℝ), (0 : ℝ), (0 : ℝ)), (2, 0, 0)] 0 1 = 2 := by
      rw [dist_matrix_entry]
      norm_num [euclidean_distance]
      rw [show (4 : ℝ) = 2 ^ 2 by norm_num]
      exact Real.sqrt_sq (by norm_num)
    rw [determine_potential, List.map_cons, List.map_nil]
    rw [show determine_potential_step [((0 : ℝ), (0 : ℝ), (0 : ℝ)), (2, 0, 0)]
        [((0, 1), 2)] k =
        0 + k * angstrom_to_bohr
          (dist_matrix_entry [((0 : ℝ), (0 : ℝ), (0 : ℝ)), (2, 0, 0)] 0 1 - 2) ^ 2 from rfl]
    rw [hdist]
    norm_num [angstrom_to_bohr]

/-- Witness for C7 at force constant `k = 1`. -/
theorem determine_potential_spec_witness :
    (0 : ℝ) < 1 ∧
    determine_potential [[(0, 0, 0), (2, 0, 0)]] [((0, 1), 2)] 1 = [0] :=
  ⟨one_pos, (determine_potential_spec [] [] 1 one_pos).2.2.2⟩

/-! ### `get_bonds` / `get_active_bonds` (generator.py lines 783-826)

A molecule enters `get_bonds` through its RDKit bond list; each bond
contributes the two atoms' map numbers and `GetBondTypeAsDouble()`.  The
descriptor string `f'{a}-{b}-{order}'` is injective on the triple
`(a, b, order)` (its components are recovered by splitting at `-`), so the
Python set of strings is embedded as a `Finset` of triples. -/

/-- Python's built-in `round` on exact rationals: nearest integer, ties to
even. -/
def pyRound (q : ℚ) : ℤ :=
  if q - ⌊q⌋ < 1/2 then ⌊q⌋
  else if q - ⌊q⌋ > 1/2 then ⌊q⌋ + 1
  else if 2 ∣ ⌊q⌋ then ⌊q⌋ else ⌊q⌋ + 1

/-- An RDKit bond as consumed by `get_bonds`: begin-atom map number,
end-atom map number, `GetBondTypeAsDouble()`. -/
abbrev PyBond : Type := ℕ × ℕ × ℚ

/-- The canonical bond descriptor: map-number pair sorted ascending plus
the integer bond order `round(bond.GetBondTypeAsDouble())`. -/
def bond_descriptor (b : PyBond) : ℕ × ℕ × ℤ :=
  if b.1 < b.2.1 then (b.1, b.2.1, pyRound b.2.2) else (b.2.1, b.1, pyRound b.2.2)

/-- `get_bonds`: the set of canonical bond descriptors of a molecule. -/
def get_bonds (mol : List PyBond) : Finset (ℕ × ℕ × ℤ) :=
  (mol.map bond_descriptor).toFinset

/-- `get_active_bonds`:
`formed = product_bonds - reactant_bonds`, `broken = reactant_bonds - product_bonds`. -/
def get_active_bonds (reactant_mol product_mol : List PyBond) :
    Finset (ℕ × ℕ × ℤ) × Finset (ℕ × ℕ × ℤ) :=
  (get_bonds product_mol \ get_bonds reactant_mol,
   get_bonds reactant_mol \ get_bonds product_mol)

/-- Claim C8: `get_active_bonds` returns the set differences
`formed = product − reactant` and `broken = reactant − product` over
canonical bond descriptors; hence `formed ∩ broken = ∅` and a bond
unchanged in order appears in neither set; and for reactant `[C:1][O:2]`
(one single bond between map numbers 1 and 2) against product
`[C:1].[O:2]` (no bonds), formed `= ∅` and broken `= {1-2-1}`. -/
theorem get_active_bonds_spec (reactant_mol product_mol : List PyBond) :
    (get_active_bonds reactant_mol product_mol).1 =
      get_bonds product_mol \ get_bonds reactant_mol ∧
    (get_active_bonds reactant_mol product_mol).2 =
      get_bonds reactant_mol \ get_bonds product_mol ∧
    Disjoint (get_active_bonds reactant_mol product_mol).1
      (get_active_bonds reactant_mol product_mol).2 ∧
    (∀ d, d ∈ get_bonds reactant_mol → d ∈ get_bonds product_mol →
      d ∉ (get_active_bonds reactant_mol product_mol).1 ∧
      d ∉ (get_active_bonds reactant_mol product_mol).2) ∧
    get_active_bonds [(1, 2, 1)] [] = (∅, {(1, 2, 1)}) := by
  refine ⟨rfl, rfl, ?_, ?_, ?_⟩
  · rw [Finset.disjoint_left]
    intro d hd hd'
    exact (Finset.mem_sdiff.mp hd).2 (Finset.mem_sdiff.mp hd').1
  · intro d hdr hdp
    constructor
    · rw [get_active_bonds, Finset.mem_sdiff]
      exact fun h => h.2 hdr
    · rw [get_active_bonds, Finset.mem_sdiff]
      exact fun h => h.2 hdp
  · have hpr : pyRound 1 = 1 := by
      norm_num [pyRound]
    have hb : get_bonds [(1, 2, 1)] = {((1 : ℕ), (2 : ℕ), (1 : ℤ))} := by
      simp [get_bonds, bond_descriptor, hpr]
    have hnil : get_bonds ([] : List PyBond) = ∅ := rfl
    rw [get_active_bonds, hb, hnil]
    rw [Finset.empty_sdiff, Finset.sdiff_empty]

/-- Witness for C8 at the Scenario-A molecules. -/
theorem get_active_bonds_spec_witness :
    get_active_bonds [(1, 2, 1)] [] = (∅, {(1, 2, 1)}) :=
  (get_active_bonds_spec [(1, 2, 1)] []).2.2.2.2

/-! ### `count_unique_conformers` (generator.py lines 592-632)

`AllChem.GetBestRMS` is an external cheminformatics primitive; it enters
the embedding as an oracle `bestRMS` queried at pairs `i < j`, exactly as
the source fills its zero-initialized `rmsd_matrix` over
`combinations(range(n), 2)`. -/

/-- Entry `(i, j)` of the symmetric RMSD matrix: zero diagonal (from
`np.zeros`), `bestRMS` at sorted index pairs. -/
def rmsd_matrix (bestRMS : ℕ → ℕ → ℚ) (i j : ℕ) : ℚ :=
  if i = j then 0 else if i < j then bestRMS i j else bestRMS j i

/-- One pass of the clustering loop body: try the existing clusters in
creation order, append `i` to the first cluster all of whose members `j`
satisfy `rmsd_matrix[i, j] < 0.5`, else open the new singleton `[i]`. -/
def add_to_clusters (R : ℕ → ℕ → ℚ) (i : ℕ) : List (List ℕ) → List (List ℕ)
  | [] => [[i]]
  | c :: cs =>
    if c.all (fun j => decide (R i j < 1/2)) then (c ++ [i]) :: cs
    else c :: add_to_clusters R i cs

/-- The clustering of `count_unique_conformers`: conformer indices
`0, …, n-1` processed in ascending order. -/
def count_unique_conformers (R : ℕ → ℕ → ℚ) (n : ℕ) : List (List ℕ) :=
  (List.range n).foldl (fun clusters i => add_to_clusters R i clusters) []

/-- The membership test of the clustering loop:
`all(rmsd_matrix[i, j] < 0.5 for j in cluster)`. -/
def accepts (R : ℕ → ℕ → ℚ) (i : ℕ) (c : List ℕ) : Prop :=
  ∀ j ∈ c, R i j < 1/2

theorem all_eq_accepts (R : ℕ → ℕ → ℚ) (i : ℕ) (c : List ℕ) :
    c.all (fun j => decide (R i j < 1/2)) = true ↔ accepts R i c := by
  simp [accepts]

theorem add_to_clusters_of_none (R : ℕ → ℕ → ℚ) (i : ℕ) :
    ∀ cs : List (List ℕ), (∀ c ∈ cs, ¬ accepts R i c) →
      add_to_clusters R i cs = cs ++ [[i]] := by
  intro cs
  induction cs with
  | nil => intro _; rfl
  | cons c cs' ih =>
    intro h
    have hc : ¬ (c.all (fun j => decide (R i j < 1/2)) = true) := by
      rw [all_eq_accepts]
      exact h c (List.mem_cons_self c cs')
    rw [add_to_clusters, if_neg hc, ih (fun c' hc' => h c' (List.mem_cons_of_mem c hc'))]
    rfl

theorem add_to_clusters_of_accepts (R : ℕ → ℕ → ℚ) (i : ℕ) :
    ∀ (pre : List (List ℕ)) (c : List ℕ) (post : List (List ℕ)),
      (∀ c' ∈ pre, ¬ accepts R i c') → accepts R i c →
      add_to_clusters R i (pre ++ c :: post) = pre ++ (c ++ [i]) :: post := by
  intro pre
  induction pre with
  | nil =>
    intro c post _ hc
    rw [List.nil_append, add_to_clusters, if_pos ((all_eq_accepts R i c).mpr hc)]
    rfl
  | cons p pre' ih =>
    intro c post h hc
    have hp : ¬ (p.all (fun j => decide (R i j < 1/2)) = true) := by
      rw [all_eq_accepts]
      exact h p (List.mem_cons_self p pre')
    rw [List.cons_append, add_to_clusters, if_neg hp,
      ih c post (fun c' hc' => h c' (List.mem_cons_of_mem p hc')) hc]
    rfl

theorem add_to_clusters_flatten_perm (R : ℕ → ℕ → ℚ) (i : ℕ) :
    ∀ cs : List (List ℕ),
      (add_to_clusters R i cs).flatten.Perm (i :: cs.flatten) := by
  intro cs
  induction cs with
  | nil => simp [add_to_clusters]
  | cons c cs' ih =>
    rw [add_to_clusters]
    split
    · rw [List.flatten_cons, List.flatten_cons, List.append_assoc,
        List.singleton_append]
      exact List.perm_middle
    · rw [List.flatten_cons, List.flatten_cons]
      have h1 : (c ++ (add_to_clusters R i cs').flatten).Perm
          (c ++ i :: cs'.flatten) := ih.append_left c
      exact h1.trans List.perm_middle

theorem add_to_clusters_ne_nil (R : ℕ → ℕ → ℚ) (i : ℕ) :
    ∀ cs : List (List ℕ), (∀ c ∈ cs, c ≠ []) →
      ∀ c ∈ add_to_clusters R i cs, c ≠ [] := by
  intro cs
  induction cs with
  | nil =>
    intro _ c hc
    rw [add_to_clusters] at hc
    rcases List.mem_cons.mp hc with rfl | h'
    · exact List.cons_ne_nil i []
    · cases h'
  | cons c₀ cs' ih =>
    intro h c hc
    rw [add_to_clusters] at hc
    split at hc
    · rcases List.mem_cons.mp hc with rfl | h'
      · exact List.append_ne_nil_of_right_ne_nil c₀ (List.cons_ne_nil i [])
      · exact h c (List.mem_cons_of_mem c₀ h')
    · rcases List.mem_cons.mp hc with rfl | h'
      · exact h c (List.mem_cons_self c cs')
      · exact ih (fun c' hc' => h c' (List.mem_cons_of_mem c₀ hc')) c h'

theorem add_to_clusters_ascending (R : ℕ → ℕ → ℚ) (i : ℕ) :
    ∀ cs : List (List ℕ), (∀ c ∈ cs, c.Pairwise (· < ·)) →
      (∀ c ∈ cs, ∀ j ∈ c, j < i) →
      ∀ c ∈ add_to_clusters R i cs, c.Pairwise (· < ·) := by
  intro cs
  induction cs with
  | nil =>
    intro _ _ c hc
    rcases List.mem_cons.mp hc with rfl | h'
    · exact List.pairwise_singleton _ i
    · cases h'
  | cons c₀ cs' ih =>
    intro hs hb c hc
    rw [add_to_clusters] at hc
    split at hc
    · rcases List.mem_cons.mp hc with rfl | h'
      · rw [List.pairwise_append]
        refine ⟨hs c₀ (List.mem_cons_self c₀ cs'), List.pairwise_singleton _ i, ?_⟩
        intro a ha b hb'
        rw [List.mem_singleton.mp hb']
        exact hb c₀ (List.mem_cons_self c₀ cs') a ha
      · exact hs c (List.mem_cons_of_mem c₀ h')
    · rcases List.mem_cons.mp hc with rfl | h'
      · exact hs c (List.mem_cons_self c cs')
      · exact ih (fun c' hc' => hs c' (List.mem_cons_of_mem c₀ hc'))
          (fun c' hc' => hb c' (List.mem_cons_of_mem c₀ hc')) c h'

theorem count_unique_conformers_succ (R : ℕ → ℕ → ℚ) (n : ℕ) :
    count_unique_conformers R (n + 1) =
      add_to_clusters R n (count_unique_conformers R n) := by
  rw [count_unique_conformers, count_unique_conformers, List.range_succ,
    List.foldl_append]
  rfl

theorem count_unique_conformers_invariant (R : ℕ → ℕ → ℚ) (n : ℕ) :
    (count_unique_conformers R n).flatten.Perm (List.range n) ∧
    (∀ c ∈ count_unique_conformers R n, c ≠ []) ∧
    (∀ c ∈ count_unique_conformers R n, c.Pairwise (· < ·)) := by
  induction n with
  | zero => exact ⟨List.Perm.refl _, fun c hc => absurd hc (List.not_mem_nil c),
      fun c hc => absurd hc (List.not_mem_nil c)⟩
  | succ n ih =>
    obtain ⟨hperm, hne, hsort⟩ := ih
    have hbound : ∀ c ∈ count_unique_conformers R n, ∀ j ∈ c, j < n := by
      intro c hc j hj
      have : j ∈ (count_unique_conformers R n).flatten :=
        List.mem_flatten.mpr ⟨c, hc, hj⟩
      exact List.mem_range.mp (hperm.mem_iff.mp this)
    refine ⟨?_, ?_, ?_⟩
    · rw [count_unique_conformers_succ, List.range_succ]
      have h1 : (add_to_clusters R n (count_unique_conformers R n)).flatten.Perm
          (n :: (count_unique_conformers R n).flatten) :=
        add_to_clusters_flatten_perm R n _
      have h2 : (n :: (count_unique_conformers R n).flatten).Perm
          (n :: List.range n) := hperm.cons n
      have h3 : (n :: (List.range n ++ [])).Perm (List.range n ++ n :: []) :=
        List.perm_middle.symm
      have h4 : (n :: List.range n).Perm (List.range n ++ [n]) := by
        simpa using h3
      exact (h1.trans h2).trans h4
    · rw [count_unique_conformers_succ]
      exact add_to_clusters_ne_nil R n _ hne
    · rw [count_unique_conformers_succ]
      exact add_to_clusters_ascending R n _ hsort hbound

/-- `conformers_to_do` of `generate_additional_conformers` (lines 267-270):
one representative file per cluster, indexed by the cluster's first
member. -/
def conformers_to_do (conformer_xyz_files : List ℕ) (clusters : List (List ℕ)) :
    List ℕ :=
  clusters.map (fun cluster => conformer_xyz_files.getD (cluster.headD 0) 0)

theorem ascending_headD_le {c : List ℕ} (hs : c.Pairwise (· < ·)) :
    ∀ j ∈ c, c.headD 0 ≤ j := by
  cases c with
  | nil => intro j hj; cases hj
  | cons a t =>
    intro j hj
    rcases List.mem_cons.mp hj with rfl | hj'
    · exact le_refl j
    · exact le_of_lt ((List.pairwise_cons.mp hs).1 j hj')

/-- The RMSD oracle of Scenario D: `RMSD(0,1) = RMSD(0,2) = 0.3`,
`RMSD(1,2) = 0.7` (queried at sorted pairs only). -/
def exampleBestRMS (i j : ℕ) : ℚ :=
  if i = 1 ∧ j = 2 then 7/10 else 3/10

/-- Claim C9: the clustering processes conformer indices in ascending
order, adds index `i` to the first existing cluster in which every member
`j` has `rmsd_matrix[i, j] < 0.5` (appending at the end, so the first
member stays first) and otherwise opens the singleton `[i]`; the RMSD
matrix has zero diagonal; and Scenario D (`RMSD(0,1)=0.3, RMSD(0,2)=0.3,
RMSD(1,2)=0.7`) clusters as `[[0, 1], [2]]`. -/
theorem count_unique_conformers_spec (bestRMS : ℕ → ℕ → ℚ) (n : ℕ) :
    count_unique_conformers (rmsd_matrix bestRMS) (n + 1) =
      add_to_clusters (rmsd_matrix bestRMS) n
        (count_unique_conformers (rmsd_matrix bestRMS) n) ∧
    (∀ (i : ℕ) (cs : List (List ℕ)),
      (∀ c ∈ cs, ¬ accepts (rmsd_matrix bestRMS) i c) →
      add_to_clusters (rmsd_matrix bestRMS) i cs = cs ++ [[i]]) ∧
    (∀ (i : ℕ) (pre : List (List ℕ)) (c : List ℕ) (post : List (List ℕ)),
      (∀ c' ∈ pre, ¬ accepts (rmsd_matrix bestRMS) i c') →
      accepts (rmsd_matrix bestRMS) i c →
      add_to_clusters (rmsd_matrix bestRMS) i (pre ++ c :: post) =
        pre ++ (c ++ [i]) :: post) ∧
    (∀ i, rmsd_matrix bestRMS i i = 0) ∧
    count_unique_conformers (rmsd_matrix exampleBestRMS) 3 = [[0, 1], [2]] := by
  refine ⟨count_unique_conformers_succ _ n, add_to_clusters_of_none _,
    add_to_clusters_of_accepts _, fun i => by rw [rmsd_matrix, if_pos rfl], ?_⟩
  have h10 : rmsd_matrix exampleBestRMS 1 0 < (2 : ℚ)⁻¹ := by
    norm_num [rmsd_matrix, exampleBestRMS]
  have h20 : rmsd_matrix exampleBestRMS 2 0 < (2 : ℚ)⁻¹ := by
    norm_num [rmsd_matrix, exampleBestRMS]
  have h21 : ¬ rmsd_matrix exampleBestRMS 2 1 < (2 : ℚ)⁻¹ := by
    norm_num [rmsd_matrix, exampleBestRMS]
  simp [count_unique_conformers, List.range_succ, add_to_clusters, h10, h20, h21]

/-- Witness for C9: the one-step characterizations at concrete inputs — a
rejected cluster produces a new singleton, an accepted first cluster
absorbs the index. -/
theorem count_unique_conformers_spec_witness :
    add_to_clusters (rmsd_matrix exampleBestRMS) 2 [[1]] = [[1], [2]] ∧
    add_to_clusters (rmsd_matrix exampleBestRMS) 1 [[0]] = [[0, 1]] := by
  constructor
  · refine (count_unique_conformers_spec exampleBestRMS 0).2.1 2 [[1]] ?_
    intro c hc
    rw [List.mem_singleton.mp hc]
    intro h
    have := h 1 (List.mem_singleton_self 1)
    norm_num [rmsd_matrix, exampleBestRMS] at this
  · have := (count_unique_conformers_spec exampleBestRMS 0).2.2.1 1 [] [0] [] ?_ ?_
    · simpa using this
    · intro c' hc'; cases hc'
    · intro j hj
      rw [List.mem_singleton.mp hj]
      norm_num [rmsd_matrix, exampleBestRMS]

/-- Claim C10: the clusters returned by `count_unique_conformers` partition
the index set `{0, …, n-1}`: their concatenation is a permutation of
`range n` (every index appears exactly once overall), every index below `n`
lies in some cluster, clusters are duplicate-free and pairwise disjoint and
non-empty, each cluster's first element is its least element, and the
downstream representative list has exactly one entry per cluster. -/
theorem count_unique_conformers_partition (R : ℕ → ℕ → ℚ) (n : ℕ)
    (conformer_xyz_files : List ℕ) :
    (count_unique_conformers R n).flatten.Perm (List.range n) ∧
    (∀ i, i < n → ∃ c, c ∈ count_unique_conformers R n ∧ i ∈ c) ∧
    (∀ c ∈ count_unique_conformers R n, c.Nodup) ∧
    (count_unique_conformers R n).Pairwise List.Disjoint ∧
    (∀ c ∈ count_unique_conformers R n, c ≠ []) ∧
    (∀ c ∈ count_unique_conformers R n, ∀ j ∈ c, c.headD 0 ≤ j) ∧
    (conformers_to_do conformer_xyz_files (count_unique_conformers R n)).length =
      (count_unique_conformers R n).length := by
  obtain ⟨hperm, hne, hsort⟩ := count_unique_conformers_invariant R n
  have hnodup : (count_unique_conformers R n).flatten.Nodup :=
    hperm.nodup_iff.mpr (List.nodup_range n)
  have hnj := List.nodup_flatten.mp hnodup
  refine ⟨hperm, ?_, hnj.1, hnj.2, hne, ?_, ?_⟩
  · intro i hi
    have : i ∈ (count_unique_conformers R n).flatten :=
      hperm.mem_iff.mpr (List.mem_range.mpr hi)
    rcases List.mem_flatten.mp this with ⟨c, hc, hic⟩
    exact ⟨c, hc, hic⟩
  · intro c hc
    exact ascending_headD_le (hsort c hc)
  · rw [conformers_to_do, List.length_map]

/-- Witness for C10 at the Scenario-D clustering: index 2 lies in some
cluster of the three-conformer clustering. -/
theorem count_unique_conformers_partition_witness :
    ∃ c, c ∈ count_unique_conformers (rmsd_matrix exampleBestRMS) 3 ∧ 2 ∈ c :=
  (count_unique_conformers_partition (rmsd_matrix exampleBestRMS) 3 []).2.1 2
    (by decide)

end TSTools
